import Mathlib

/-!  Verification of the line-deduplication / block-segmentation /
address-registry core of the Codemap repository (`src/app/page.tsx`).
The definitions below are a shallow embedding of the TypeScript functions
`detectCodeDuplicates`, `detectFunctionBlocks`, `createLineComposition`,
`buildAddressRegistry` and `summonAddress`; the theorems settle the
specification's claims about them. -/

namespace Codemap

/-- One logical line of source input (`ProcessNode` in `app/page.tsx`).
Only the fields read or written by the analysis routines are modelled;
the purely presentational fields (3D coordinates, strand, base-pair data,
`is_fork`, `parent_index`, `fork_direction`, `spiral_id`) are omitted
because none of the modelled functions inspect them. -/
structure ProcessNode where
  index : Nat
  command : Option String := none
  category : Option String := none
  fork_type : Option String := none
  isDuplicate : Option Bool := none
  referenceTo : Option Nat := none
  duplicateCount : Option Nat := none
  references : Option (List Nat) := none
deriving DecidableEq, Inhabited

/-- Removal of leading and trailing whitespace from a character list —
the semantics of `String.prototype.trim` (for the whitespace characters
that occur in source text). -/
def trimChars (l : List Char) : List Char :=
  ((l.dropWhile Char.isWhitespace).reverse.dropWhile Char.isWhitespace).reverse

/-- Normalization applied to a command before any comparison:
`process.command?.toLowerCase().trim() || ""` in the source.  A missing
command (and a command that trims to nothing) normalizes to `""`.
Lower-casing and trimming are modelled character by character. -/
def normalize (command : Option String) : String :=
  (trimChars (((command.getD "").toList).map Char.toLower)).asString

/-- Decimal digit characters, used to render numbers in address strings. -/
def digitChar : Nat → Char
  | 0 => '0'
  | 1 => '1'
  | 2 => '2'
  | 3 => '3'
  | 4 => '4'
  | 5 => '5'
  | 6 => '6'
  | 7 => '7'
  | 8 => '8'
  | 9 => '9'
  | _ => '*'

/-- Fuel-driven most-significant-first decimal digits of `n` (empty for 0).
The fuel only bounds the recursion; `decDigitsAux n n` is exact. -/
def decDigitsAux : Nat → Nat → List Char
  | 0, _ => []
  | fuel + 1, n => if n = 0 then [] else decDigitsAux fuel (n / 10) ++ [digitChar (n % 10)]

/-- Decimal rendering of a natural number, exactly as a JavaScript template
literal renders a nonnegative integer. -/
def decimalRepr (n : Nat) : String :=
  if n = 0 then "0" else (decDigitsAux n n).asString

/-- The 1-based lowercase line reference for a 0-based index:
`` `a${addressIndex + 1}` `` in the source. -/
def lineRefStr (i : Nat) : String :=
  "a" ++ decimalRepr (i + 1)

/-- Append a node to the group of a key inside the `codeMap`, creating the
group at the end when the key is new — the observable behaviour of the JS
`Map.get`/`Map.set` pair in `detectCodeDuplicates`. -/
def insertGroup : List (String × List ProcessNode) → String → ProcessNode →
    List (String × List ProcessNode)
  | [], key, p => [(key, [p])]
  | g :: rest, key, p =>
    if g.1 = key then (g.1, g.2 ++ [p]) :: rest else g :: insertGroup rest key p

/-- The `codeMap` of `detectCodeDuplicates`: nodes grouped by normalized
command; keys appear in first-appearance order (JS `Map` iteration order)
and each group keeps the input order of its members. -/
def buildCodeMap (nodes : List ProcessNode) : List (String × List ProcessNode) :=
  nodes.foldl (fun m p => insertGroup m (normalize p.command) p) []

/-- The rewritten command of a duplicate node:
`` `â†’ REF A${primary.index + 1}: ${command}` `` where `command` is the
group key, i.e. the normalized command text.  (The arrow characters are
exactly the ones present in the repository file.) -/
def refCommand (primaryIndex : Nat) (text : String) : String :=
  "â†’ REF A" ++ decimalRepr (primaryIndex + 1) ++ ": " ++ text

/-- Emission of one `codeMap` group by `detectCodeDuplicates`: a singleton
group is re-emitted with `isDuplicate := false`; a larger group emits its
first member as primary (with count and references) followed by the
remaining members tagged as duplicates with rewritten commands. -/
def emitGroup (key : String) (dups : List ProcessNode) : List ProcessNode :=
  match dups with
  | [] => []
  | primary :: rest =>
    if rest = [] then
      [{ primary with isDuplicate := some false }]
    else
      { primary with
          isDuplicate := some false
          duplicateCount := some (rest.length + 1)
          references := some (rest.map (fun d => d.index)) } ::
        rest.map (fun duplicate =>
          { duplicate with
              isDuplicate := some true
              referenceTo := some primary.index
              command := some (refCommand primary.index key) })

/-- Insertion of a node into a list sorted by ascending `index`. -/
def insertSorted (p : ProcessNode) : List ProcessNode → List ProcessNode
  | [] => [p]
  | q :: qs => if p.index ≤ q.index then p :: q :: qs else q :: insertSorted p qs

/-- Sorting by ascending `index` — the final
`.sort((a, b) => a.index - b.index)` of `detectCodeDuplicates`.  On the
inputs that arise (pairwise distinct indices) every correct sorting
algorithm returns the same list, so insertion sort is an exact model. -/
def sortByIndex (l : List ProcessNode) : List ProcessNode :=
  l.foldr insertSorted []

/-- `detectCodeDuplicates` from `app/page.tsx`: group by normalized
command, emit each group (primaries first inside a group), then sort the
emitted nodes back into ascending `index` order. -/
def detectCodeDuplicates (nodes : List ProcessNode) : List ProcessNode :=
  sortByIndex ((buildCodeMap nodes).flatMap (fun g => emitGroup g.1 g.2))

/-- All nodes of the input whose normalized command equals `v`, in input
order — the group that `detectCodeDuplicates` forms for the key `v`. -/
def groupOf (nodes : List ProcessNode) (v : String) : List ProcessNode :=
  nodes.filter (fun q => normalize q.command = v)

/-- The tagging `detectCodeDuplicates` applies to a single node `q` of
`nodes`, expressed directly through `q`'s duplicate group. -/
def processNodeSpec (nodes : List ProcessNode) (q : ProcessNode) : ProcessNode :=
  match groupOf nodes (normalize q.command) with
  | [] => q
  | primary :: rest =>
    if rest = [] then
      { q with isDuplicate := some false }
    else if q.index = primary.index then
      { q with
          isDuplicate := some false
          duplicateCount := some (rest.length + 1)
          references := some (rest.map (fun d => d.index)) }
    else
      { q with
          isDuplicate := some true
          referenceTo := some primary.index
          command := some (refCommand primary.index (normalize q.command)) }

/-- Input well-formedness delivered by the upstream line-to-node mapping:
each node's `index` field is its zero-based position in the sequence
(hence indices are unique and ascending from zero). -/
def IndexedByPosition (nodes : List ProcessNode) : Prop :=
  nodes.map (fun q => q.index) = List.range nodes.length

/-- A fresh input node as the upstream line-to-node mapping produces it:
only `index`, `command` and `category` are set. -/
def mkNode (i : Nat) (c : Option String) (cat : Option String := none) : ProcessNode :=
  { index := i, command := c, category := cat }

/-- Concrete test vector: the spec's block scenario
`["def f():", "x = 1", "return x"]`. -/
def funcLines : List ProcessNode :=
  [mkNode 0 (some "def f():") (some "function"), mkNode 1 (some "x = 1"),
   mkNode 2 (some "return x")]

/-- Concrete test vector for the address registry: repeated and
self-referencing address mentions. -/
def regLines : List ProcessNode :=
  [mkNode 0 (some "go a2"), mkNode 1 (some "a1 a1 a2 x"), mkNode 2 none]

/-- Concrete test vector: a function block left open at end of input. -/
def funcLinesOpen : List ProcessNode :=
  [mkNode 0 (some "def f():") (some "function"), mkNode 1 (some "x = 1")]

/-- First-match association lookup over string keys — the behaviour of
`Map.get` / object indexing for the string-keyed tables of the source. -/
def lookupKey {β : Type} : List (String × β) → String → Option β
  | [], _ => none
  | e :: rest, key => if e.1 = key then some e.2 else lookupKey rest key

/-- The `lineMap` of `detectFunctionBlocks`: the first index of every
non-empty normalized command, keys in first-appearance order.  Empty
normalized commands are skipped (`if (normalizedCommand && ...)`). -/
def buildLineMap (processes : List ProcessNode) : List (String × Nat) :=
  processes.enum.foldl
    (fun lineMap pi =>
      if normalize pi.2.command ≠ "" ∧ lookupKey lineMap (normalize pi.2.command) = none then
        lineMap ++ [(normalize pi.2.command, pi.1)]
      else lineMap)
    []

/-- The node at a position, with a default for the (unreachable in the
source's call sites) out-of-range case: `processes[addressIndex]`. -/
def nodeAt (processes : List ProcessNode) (i : Nat) : ProcessNode :=
  processes.getD i default

/-- Result record of `createLineComposition`. -/
structure LineComposition where
  lineComposition : List String
  originalLines : List String
  optimizedLines : List String
  duplicateReplacements : List (String × String)
deriving DecidableEq, Inhabited

/-- `createLineComposition` from `app/page.tsx`: walk the block's address
range; each address contributes its own reference to `originalLines`; it
contributes the first occurrence's reference to `optimizedLines` (and a
`duplicateReplacements` entry) exactly when the `lineMap` holds a strictly
earlier first occurrence of its normalized command, otherwise its own
reference.  The returned `lineComposition` aliases `optimizedLines`. -/
def createLineComposition :
    List Nat → List ProcessNode → List (String × Nat) → LineComposition
  | [], _, _ => ⟨[], [], [], []⟩
  | addressIndex :: restAddresses, processes, lineMap =>
    let tail := createLineComposition restAddresses processes lineMap
    let lineRef := lineRefStr addressIndex
    match lookupKey lineMap (normalize (nodeAt processes addressIndex).command) with
    | some firstOccurrence =>
      if firstOccurrence < addressIndex then
        ⟨lineRefStr firstOccurrence :: tail.lineComposition,
         lineRef :: tail.originalLines,
         lineRefStr firstOccurrence :: tail.optimizedLines,
         (lineRef, lineRefStr firstOccurrence) :: tail.duplicateReplacements⟩
      else
        ⟨lineRef :: tail.lineComposition, lineRef :: tail.originalLines,
         lineRef :: tail.optimizedLines, tail.duplicateReplacements⟩
    | none =>
      ⟨lineRef :: tail.lineComposition, lineRef :: tail.originalLines,
       lineRef :: tail.optimizedLines, tail.duplicateReplacements⟩

/-- A function block (`FunctionBlock` in `app/page.tsx`). -/
structure FunctionBlock where
  id : String
  name : String
  startAddress : Nat
  endAddress : Nat
  addresses : List Nat
  lineComposition : List String
  originalLines : List String
  optimizedLines : List String
  duplicateReplacements : List (String × String)
  category : String
  description : String
deriving DecidableEq, Inhabited

/-- The fields of a block filled in when it is opened (the source's
`currentBlock`, a `Partial<FunctionBlock>`). -/
structure OpenBlock where
  id : String
  name : String
  startAddress : Nat
  category : String
  description : String
deriving DecidableEq, Inhabited

/-- Is this node a function start?
`process.category === "function" || process.fork_type === "function_call"`. -/
def isFunctionStart (p : ProcessNode) : Bool :=
  p.category = some "function" ∨ p.fork_type = some "function_call"

/-- Occurrence of `pat` as a contiguous run inside a character list —
the semantics of JavaScript `String.prototype.includes`. -/
def includesChars (pat : List Char) : List Char → Bool
  | [] => pat.isEmpty
  | c :: cs => pat.isPrefixOf (c :: cs) || includesChars pat cs

/-- Does this node end a block?
`process.command?.includes("return") || process.fork_type === "merge"`. -/
def isReturnOrMerge (p : ProcessNode) : Bool :=
  (match p.command with
   | some c => includesChars "return".toList c.toList
   | none => false) ||
  p.fork_type = some "merge"

/-- Removal of the leftmost occurrence of `"def "` or `"function "` from a
character list — the JS `command.replace(/def |function /, "")`.  (The two
alternatives can never match at the same position, so leftmost-first
alternation is plain leftmost occurrence.) -/
def stripFuncKeyword : List Char → List Char
  | [] => []
  | c :: cs =>
    if "def ".toList.isPrefixOf (c :: cs) then cs.drop 3
    else if "function ".toList.isPrefixOf (c :: cs) then cs.drop 8
    else c :: stripFuncKeyword cs

/-- Opening a new block at `index` when `blocksLen` blocks have already
been emitted: the object literal assigned to `currentBlock`.  A missing
command, or a name that strips to the empty string (falsy in JS), falls
back to `"Function " ++ ordinal`. -/
def openBlock (process : ProcessNode) (index : Nat) (blocksLen : Nat) : OpenBlock :=
  { id := "func-" ++ decimalRepr (blocksLen + 1)
    name :=
      match process.command with
      | some c =>
        let stripped := (stripFuncKeyword c.toList).asString
        if stripped = "" then "Function " ++ decimalRepr (blocksLen + 1) else stripped
      | none => "Function " ++ decimalRepr (blocksLen + 1)
    startAddress := index
    category :=
      match process.category with
      | some c => if c = "" then "general" else c
      | none => "general"
    description := "Function block starting at A" ++ decimalRepr (index + 1) }

/-- Closing an open block at `endAddress`: the `blocks.push({...})` sites
of `detectFunctionBlocks`.  `addresses` is the contiguous range from
`startAddress` to `endAddress`
(`Array.from({ length: endAddress - startAddress + 1 }, (_, i) => startAddress + i)`). -/
def closeBlock (processes : List ProcessNode) (lineMap : List (String × Nat))
    (cb : OpenBlock) (endAddress : Nat) : FunctionBlock :=
  let blockAddresses :=
    (List.range (endAddress - cb.startAddress + 1)).map (fun i => cb.startAddress + i)
  let comp := createLineComposition blockAddresses processes lineMap
  { id := cb.id
    name := cb.name
    startAddress := cb.startAddress
    endAddress := endAddress
    addresses := blockAddresses
    lineComposition := comp.lineComposition
    originalLines := comp.originalLines
    optimizedLines := comp.optimizedLines
    duplicateReplacements := comp.duplicateReplacements
    category := cb.category
    description := cb.description }

/-- One iteration of the `processes.forEach` loop of
`detectFunctionBlocks` on the state `(blocks, currentBlock)`: first the
function-start check (closing any open block exclusively at `index - 1`
and opening a new one at `index`), then — on the same node — the
return/merge check (closing any open block inclusively at `index`). -/
def stepBlock (processes : List ProcessNode) (lineMap : List (String × Nat))
    (st : List FunctionBlock × Option OpenBlock) (pi : Nat × ProcessNode) :
    List FunctionBlock × Option OpenBlock :=
  let index := pi.1
  let process := pi.2
  let st1 :=
    if isFunctionStart process then
      let blocks1 :=
        match st.2 with
        | some cb => st.1 ++ [closeBlock processes lineMap cb (index - 1)]
        | none => st.1
      (blocks1, some (openBlock process index blocks1.length))
    else st
  if isReturnOrMerge process then
    match st1.2 with
    | some cb => (st1.1 ++ [closeBlock processes lineMap cb index], none)
    | none => (st1.1, none)
  else st1

/-- `detectFunctionBlocks` from `app/page.tsx`: a single left-to-right
pass with one open-block slot; a block still open after the loop is closed
at the last index of the sequence. -/
def detectFunctionBlocks (processes : List ProcessNode) : List FunctionBlock :=
  let lineMap := buildLineMap processes
  let result := processes.enum.foldl (stepBlock processes lineMap) ([], none)
  match result.2 with
  | some cb => result.1 ++ [closeBlock processes lineMap cb (processes.length - 1)]
  | none => result.1

/-- The derived efficiency-reduction metric shown for every block:
`1 - block.optimizedLines.length / block.originalLines.length`
(the division is numeric in the source; it is modelled over `ℚ`). -/
def efficiencyReduction (b : FunctionBlock) : ℚ :=
  1 - (b.optimizedLines.length : ℚ) / (b.originalLines.length : ℚ)

/-- One entry of the address registry.  The cosmetic `executionFunction`
(an async closure that fabricates a result string after a timeout) is not
modelled; no claim concerns it. -/
structure RegistryEntry where
  node : ProcessNode
  index : Nat
  dependencies : List String
deriving DecidableEq, Inhabited

/-- Fuel-driven scanner for the matches of the global regex `/a\d+/g`:
left-to-right, non-overlapping, each match a lowercase `a` followed by a
maximal non-empty run of digits.  The fuel only bounds the recursion
depth; any fuel at least the list length is exact. -/
def addrMatchesAux : Nat → List Char → List String
  | 0, _ => []
  | _ + 1, [] => []
  | fuel + 1, c :: cs =>
    if c = 'a' ∧ (cs.takeWhile Char.isDigit) ≠ [] then
      ('a' :: cs.takeWhile Char.isDigit).asString ::
        addrMatchesAux fuel (cs.dropWhile Char.isDigit)
    else
      addrMatchesAux fuel cs

/-- The matches of `/a\d+/g` over a command's characters. -/
def addrMatches (l : List Char) : List String :=
  addrMatchesAux l.length l

/-- The dependencies recorded for the node owning `addressId`: every
`/a\d+/g` match of the command except exact self-references, in match
order and without de-duplication.  A missing command yields no
dependencies (for the empty command the source skips the scan because
`""` is falsy, which also yields no matches). -/
def dependenciesOf (addressId : String) (node : ProcessNode) : List String :=
  match node.command with
  | some command => (addrMatches command.toList).filter (fun addr => addr ≠ addressId)
  | none => []

/-- The synthetic address of the node at position `i`: `` `a${i + 1}` ``. -/
def addressIdOf (i : Nat) : String :=
  "a" ++ decimalRepr (i + 1)

/-- `buildAddressRegistry` from `app/page.tsx`: one entry per node, keyed
by its synthetic address. -/
def buildAddressRegistry (processes : List ProcessNode) : List (String × RegistryEntry) :=
  processes.enum.map
    (fun pi =>
      (addressIdOf pi.1,
       { node := pi.2, index := pi.1, dependencies := dependenciesOf (addressIdOf pi.1) pi.2 }))

/-- The caller-visible outcome of `summonAddress`. -/
inductive SummonResult where
  | notFound (message : String)
  | executed (entry : RegistryEntry)
deriving DecidableEq

/-- The control flow of `summonAddress` for a given registry: an address
absent from the registry reports an error message and returns `null`
(`notFound`), without throwing; a present address proceeds to the
(cosmetic) execution path with its registry entry. -/
def summonAddress (registry : List (String × RegistryEntry)) (addressId : String) :
    SummonResult :=
  match lookupKey registry addressId with
  | none => SummonResult.notFound ("Address " ++ addressId ++ " not found in registry")
  | some entry => SummonResult.executed entry

/-! ### Injectivity of the decimal address rendering -/

/-- Decimal valuation of a character list, inverse to digit rendering. -/
def charVal (l : List Char) : Nat :=
  l.foldl (fun acc c => 10 * acc + (c.toNat - 48)) 0

/-- Shape of one `/a\d+/` match: a lowercase `a` followed by a non-empty
run of decimal digits. -/
def isAddrToken (s : String) : Bool :=
  match s.toList with
  | c :: ds => (decide (c = 'a')) && (decide (ds ≠ [])) && ds.all Char.isDigit
  | [] => false

/-- Invariant of the emitted block list after processing `k` nodes: the
address ranges are well-formed (`start ≤ end`), strictly increasing from
block to block, bounded by `k`, and every block's line lists have the
length of its address range. -/
def GoodBlocks (k : Nat) (blocks : List FunctionBlock) : Prop :=
  blocks.Pairwise (fun b₁ b₂ => b₁.endAddress < b₂.startAddress) ∧
  ∀ b ∈ blocks, b.startAddress ≤ b.endAddress ∧ b.endAddress < k ∧
    b.originalLines.length = b.addresses.length ∧
    b.optimizedLines.length = b.addresses.length ∧
    b.addresses.length = b.endAddress - b.startAddress + 1

/-- Invariant of the whole segmenter state after processing `k` nodes: the
emitted blocks satisfy `GoodBlocks`, and an open block starts after every
emitted block's end and before position `k`. -/
def GoodState (k : Nat) (st : List FunctionBlock × Option OpenBlock) : Prop :=
  GoodBlocks k st.1 ∧
  ∀ cb, st.2 = some cb →
    (∀ b ∈ st.1, b.endAddress < cb.startAddress) ∧ cb.startAddress < k

/-- Strict index order is (vacuously) antisymmetric; it identifies the
unique sorted arrangement of nodes with pairwise distinct indices. -/
instance : IsAntisymm ProcessNode (fun a b => a.index < b.index) :=
  ⟨fun _ _ h₁ h₂ => absurd (Nat.lt_trans h₁ h₂) (Nat.lt_irrefl _)⟩

instance (nodes : List ProcessNode) : Decidable (IndexedByPosition nodes) :=
  inferInstanceAs (Decidable (nodes.map (fun q => q.index) = List.range nodes.length))

theorem digitChar_toNat (d : Nat) (hd : d < 10) : (digitChar d).toNat = 48 + d := by
  interval_cases d <;> rfl

theorem charVal_append_digit (l : List Char) (c : Char) :
    charVal (l ++ [c]) = 10 * charVal l + (c.toNat - 48) := by
  unfold charVal
  rw [List.foldl_append]
  rfl

theorem charVal_decDigitsAux (fuel : Nat) :
    ∀ n : Nat, n ≤ fuel → charVal (decDigitsAux fuel n) = n := by
  induction fuel with
  | zero => intro n hn; interval_cases n; rfl
  | succ fuel ih =>
    intro n hn
    by_cases h0 : n = 0
    · subst h0; simp [decDigitsAux, charVal]
    · have hlt : n / 10 < n := Nat.div_lt_self (Nat.pos_of_ne_zero h0) (by norm_num)
      have hdiv : n / 10 ≤ fuel := by omega
      rw [decDigitsAux, if_neg h0, charVal_append_digit, ih _ hdiv,
        digitChar_toNat _ (Nat.mod_lt _ (by norm_num))]
      omega

theorem charVal_decimal (n : Nat) : charVal (decimalRepr n).toList = n := by
  by_cases h0 : n = 0
  · subst h0; rfl
  · rw [decimalRepr, if_neg h0, List.toList_asString, charVal_decDigitsAux n n le_rfl]

theorem decimalRepr_injective : Function.Injective decimalRepr := by
  intro m n h
  have h2 := congrArg (fun s => charVal s.toList) h
  simp only [charVal_decimal] at h2
  exact h2

theorem addressIdOf_injective : Function.Injective addressIdOf := by
  intro m n h
  have hdata : ('a' :: (decimalRepr (m + 1)).data) = ('a' :: (decimalRepr (n + 1)).data) := by
    have := congrArg String.data h
    simpa [addressIdOf, String.data_append] using this
  have : decimalRepr (m + 1) = decimalRepr (n + 1) := by
    apply String.ext
    exact List.cons_injective hdata
  have := decimalRepr_injective this
  omega

theorem lineRefStr_injective : Function.Injective lineRefStr :=
  fun _ _ h => addressIdOf_injective h

/-! ### The insertion sort models the final index sort -/

theorem insertSorted_perm (p : ProcessNode) (l : List ProcessNode) :
    List.Perm (insertSorted p l) (p :: l) := by
  induction l with
  | nil => rfl
  | cons q qs ih =>
    rw [insertSorted]
    by_cases h : p.index ≤ q.index
    · rw [if_pos h]
    · rw [if_neg h]
      exact (ih.cons q).trans (List.Perm.swap _ _ _)

theorem sortByIndex_perm (l : List ProcessNode) : List.Perm (sortByIndex l) l := by
  induction l with
  | nil => rfl
  | cons q qs ih =>
    exact (insertSorted_perm q (sortByIndex qs)).trans (ih.cons q)

theorem insertSorted_pairwise (p : ProcessNode) (l : List ProcessNode)
    (h : l.Pairwise (fun a b => a.index ≤ b.index)) :
    (insertSorted p l).Pairwise (fun a b => a.index ≤ b.index) := by
  induction l with
  | nil => simp [insertSorted]
  | cons q qs ih =>
    rw [List.pairwise_cons] at h
    rw [insertSorted]
    by_cases hpq : p.index ≤ q.index
    · rw [if_pos hpq, List.pairwise_cons]
      refine ⟨?_, List.pairwise_cons.mpr h⟩
      intro b hb
      rcases List.mem_cons.mp hb with hb | hb
      · exact hb ▸ hpq
      · exact le_trans hpq (h.1 b hb)
    · rw [if_neg hpq, List.pairwise_cons]
      refine ⟨?_, ih h.2⟩
      intro b hb
      have hb' := (insertSorted_perm p qs).mem_iff.mp hb
      rcases List.mem_cons.mp hb' with hb' | hb'
      · subst hb'; omega
      · exact h.1 b hb'

theorem sortByIndex_pairwise (l : List ProcessNode) :
    (sortByIndex l).Pairwise (fun a b => a.index ≤ b.index) := by
  induction l with
  | nil => simp [sortByIndex]
  | cons q qs ih => exact insertSorted_pairwise q _ ih

theorem pairwise_lt_of_le_nodup (l : List ProcessNode)
    (hle : l.Pairwise (fun a b => a.index ≤ b.index))
    (hnd : (l.map (fun q => q.index)).Nodup) :
    l.Pairwise (fun a b => a.index < b.index) := by
  induction l with
  | nil => simp
  | cons q qs ih =>
    rw [List.pairwise_cons] at hle ⊢
    rw [List.map_cons, List.nodup_cons] at hnd
    refine ⟨?_, ih hle.2 hnd.2⟩
    intro b hb
    have hne : q.index ≠ b.index := fun h =>
      hnd.1 (h ▸ List.mem_map_of_mem (fun x => x.index) hb)
    exact lt_of_le_of_ne (hle.1 b hb) hne

/-! ### The code map groups the nodes by normalized command -/

theorem lookupKey_insertGroup_self (m : List (String × List ProcessNode)) (k : String)
    (p : ProcessNode) :
    lookupKey (insertGroup m k p) k = some ((lookupKey m k).getD [] ++ [p]) := by
  induction m with
  | nil => simp [insertGroup, lookupKey]
  | cons g rest ih =>
    rw [insertGroup]
    by_cases h : g.1 = k
    · rw [if_pos h]
      simp [lookupKey, h]
    · rw [if_neg h]
      simp [lookupKey, h, ih]

theorem lookupKey_insertGroup_ne (m : List (String × List ProcessNode)) (k k' : String)
    (p : ProcessNode) (h : k' ≠ k) :
    lookupKey (insertGroup m k p) k' = lookupKey m k' := by
  induction m with
  | nil => simp [insertGroup, lookupKey, Ne.symm h]
  | cons g rest ih =>
    rw [insertGroup]
    by_cases hg : g.1 = k
    · rw [if_pos hg]
      have : g.1 ≠ k' := hg ▸ Ne.symm h
      simp [lookupKey, this]
    · rw [if_neg hg]
      by_cases hg' : g.1 = k'
      · simp [lookupKey, hg']
      · simp [lookupKey, hg', ih]

theorem mem_keys_insertGroup (m : List (String × List ProcessNode)) (k : String)
    (p : ProcessNode) (k' : String)
    (h : k' ∈ (insertGroup m k p).map Prod.fst) :
    k' ∈ m.map Prod.fst ∨ k' = k := by
  induction m with
  | nil => simpa [insertGroup] using h
  | cons g rest ih =>
    rw [insertGroup] at h
    by_cases hg : g.1 = k
    · rw [if_pos hg] at h
      exact Or.inl (by simpa using h)
    · rw [if_neg hg] at h
      rw [List.map_cons, List.mem_cons] at h
      rcases h with h | h
      · exact Or.inl (by simp [h])
      · rcases ih h with h' | h'
        · exact Or.inl (List.mem_cons_of_mem _ h')
        · exact Or.inr h'

theorem nodupKeys_insertGroup (m : List (String × List ProcessNode)) (k : String)
    (p : ProcessNode) (h : (m.map Prod.fst).Nodup) :
    ((insertGroup m k p).map Prod.fst).Nodup := by
  induction m with
  | nil => simp [insertGroup]
  | cons g rest ih =>
    rw [List.map_cons, List.nodup_cons] at h
    rw [insertGroup]
    by_cases hg : g.1 = k
    · rw [if_pos hg]
      rw [List.map_cons, List.nodup_cons]
      exact h
    · rw [if_neg hg]
      rw [List.map_cons, List.nodup_cons]
      refine ⟨?_, ih h.2⟩
      intro hmem
      rcases mem_keys_insertGroup rest k p g.1 hmem with h' | h'
      · exact h.1 h'
      · exact hg h'

theorem lookupKey_foldlInsert_of_some (nodes : List ProcessNode) :
    ∀ (m : List (String × List ProcessNode)) (k : String) (ps : List ProcessNode),
      lookupKey m k = some ps →
      lookupKey (nodes.foldl (fun m p => insertGroup m (normalize p.command) p) m) k =
        some (ps ++ groupOf nodes k) := by
  induction nodes with
  | nil => intro m k ps h; simpa [groupOf] using h
  | cons q rest ih =>
    intro m k ps h
    rw [List.foldl_cons]
    by_cases hq : normalize q.command = k
    · have h1 : lookupKey (insertGroup m (normalize q.command) q) k = some (ps ++ [q]) := by
        rw [hq, lookupKey_insertGroup_self, h]
        rfl
      rw [ih _ _ _ h1]
      simp [groupOf, List.filter_cons, hq, List.append_assoc]
    · have h1 : lookupKey (insertGroup m (normalize q.command) q) k = some ps := by
        rw [lookupKey_insertGroup_ne _ _ _ _ (fun hh => hq hh.symm)]
        exact h
      rw [ih _ _ _ h1]
      simp [groupOf, List.filter_cons, hq]

theorem lookupKey_foldlInsert_of_none (nodes : List ProcessNode) :
    ∀ (m : List (String × List ProcessNode)) (k : String) (ps : List ProcessNode),
      lookupKey m k = none →
      lookupKey (nodes.foldl (fun m p => insertGroup m (normalize p.command) p) m) k =
        some ps →
      ps = groupOf nodes k := by
  induction nodes with
  | nil =>
    intro m k ps h h2
    rw [List.foldl_nil, h] at h2
    exact absurd h2 (by simp)
  | cons q rest ih =>
    intro m k ps h h2
    rw [List.foldl_cons] at h2
    by_cases hq : normalize q.command = k
    · have h1 : lookupKey (insertGroup m (normalize q.command) q) k = some [q] := by
        rw [hq, lookupKey_insertGroup_self, h]
        rfl
      rw [lookupKey_foldlInsert_of_some rest _ _ _ h1] at h2
      have hps : ps = q :: groupOf rest k := by
        have := Option.some.inj h2
        simpa using this.symm
      rw [hps]
      simp [groupOf, List.filter_cons, hq]
    · have h1 : lookupKey (insertGroup m (normalize q.command) q) k = none := by
        rw [lookupKey_insertGroup_ne _ _ _ _ (fun hh => hq hh.symm)]
        exact h
      rw [ih _ _ _ h1 h2]
      simp [groupOf, List.filter_cons, hq]

theorem nodupKeys_buildCodeMap (nodes : List ProcessNode) :
    ((buildCodeMap nodes).map Prod.fst).Nodup := by
  suffices h : ∀ m : List (String × List ProcessNode), (m.map Prod.fst).Nodup →
      ((nodes.foldl (fun m p => insertGroup m (normalize p.command) p) m).map Prod.fst).Nodup by
    exact h [] (by simp)
  induction nodes with
  | nil => intro m hm; simpa using hm
  | cons q rest ih =>
    intro m hm
    rw [List.foldl_cons]
    exact ih _ (nodupKeys_insertGroup m _ q hm)

theorem lookupKey_of_mem_nodupKeys {β : Type} (m : List (String × β))
    (e : String × β) (hnd : (m.map Prod.fst).Nodup) (he : e ∈ m) :
    lookupKey m e.1 = some e.2 := by
  induction m with
  | nil => exact absurd he (by simp)
  | cons g rest ih =>
    rw [List.map_cons, List.nodup_cons] at hnd
    rcases List.mem_cons.mp he with he | he
    · subst he
      simp [lookupKey]
    · have hne : g.1 ≠ e.1 := by
        intro hh
        exact hnd.1 (hh ▸ List.mem_map_of_mem Prod.fst he)
      rw [lookupKey, if_neg hne]
      exact ih hnd.2 he

theorem mem_buildCodeMap_eq_groupOf (nodes : List ProcessNode)
    (e : String × List ProcessNode) (he : e ∈ buildCodeMap nodes) :
    e.2 = groupOf nodes e.1 := by
  have h1 := lookupKey_of_mem_nodupKeys _ e (nodupKeys_buildCodeMap nodes) he
  exact lookupKey_foldlInsert_of_none nodes [] e.1 e.2 rfl h1

theorem values_insertGroup (m : List (String × List ProcessNode)) (k : String)
    (p : ProcessNode) :
    List.Perm ((insertGroup m k p).flatMap (fun g => g.2))
      (m.flatMap (fun g => g.2) ++ [p]) := by
  induction m with
  | nil => simp [insertGroup]
  | cons g rest ih =>
    rw [insertGroup]
    by_cases h : g.1 = k
    · rw [if_pos h]
      simp only [List.flatMap_cons]
      have h2 : List.Perm ([p] ++ rest.flatMap (fun g => g.2))
          (rest.flatMap (fun g => g.2) ++ [p]) := List.perm_append_comm
      have h3 := h2.append_left g.2
      simpa [List.append_assoc] using h3
    · rw [if_neg h]
      simp only [List.flatMap_cons]
      have h3 := ih.append_left g.2
      simpa [List.append_assoc] using h3

theorem values_foldlInsert (nodes : List ProcessNode) :
    ∀ m : List (String × List ProcessNode),
      List.Perm ((nodes.foldl (fun m p => insertGroup m (normalize p.command) p) m).flatMap
          (fun g => g.2))
        (m.flatMap (fun g => g.2) ++ nodes) := by
  induction nodes with
  | nil => intro m; simp
  | cons q rest ih =>
    intro m
    rw [List.foldl_cons]
    refine (ih _).trans ?_
    refine ((values_insertGroup m _ q).append_right rest).trans ?_
    rw [List.append_assoc]
    exact List.Perm.refl _

theorem values_buildCodeMap (nodes : List ProcessNode) :
    List.Perm ((buildCodeMap nodes).flatMap (fun g => g.2)) nodes := by
  simpa using values_foldlInsert nodes []

/-! ### Characterization of the duplicate detector -/

theorem emitGroup_length (k : String) (ps : List ProcessNode) :
    (emitGroup k ps).length = ps.length := by
  cases ps with
  | nil => rfl
  | cons primary rest =>
    rw [emitGroup]
    by_cases h : rest = []
    · subst h; rfl
    · rw [if_neg h]; simp

theorem flatMap_emit_length (m : List (String × List ProcessNode)) :
    (m.flatMap (fun g => emitGroup g.1 g.2)).length = (m.flatMap (fun g => g.2)).length := by
  induction m with
  | nil => rfl
  | cons g rest ih => simp [List.flatMap_cons, emitGroup_length, ih]

theorem detectCodeDuplicates_length (nodes : List ProcessNode) :
    (detectCodeDuplicates nodes).length = nodes.length := by
  rw [detectCodeDuplicates, (sortByIndex_perm _).length_eq, flatMap_emit_length,
    (values_buildCodeMap nodes).length_eq]

theorem processNodeSpec_index (nodes : List ProcessNode) (q : ProcessNode) :
    (processNodeSpec nodes q).index = q.index := by
  rw [processNodeSpec]
  cases hg : groupOf nodes (normalize q.command) with
  | nil => rfl
  | cons a l =>
    by_cases h1 : l = []
    · simp [h1]
    · by_cases h2 : q.index = a.index <;> simp [h1, h2]

theorem mem_groupOf_normalize (nodes : List ProcessNode) (k : String)
    (q : ProcessNode) (hq : q ∈ groupOf nodes k) : normalize q.command = k := by
  have := (List.mem_filter.mp hq).2
  exact of_decide_eq_true this

theorem groupOf_map_index_nodup (nodes : List ProcessNode)
    (hnd : (nodes.map (fun q => q.index)).Nodup) (k : String) :
    ((groupOf nodes k).map (fun q => q.index)).Nodup :=
  hnd.sublist ((List.filter_sublist nodes).map (fun q => q.index))

theorem emitGroup_eq_map_spec (nodes : List ProcessNode) (k : String)
    (ps : List ProcessNode)
    (hnd : (nodes.map (fun q => q.index)).Nodup)
    (hg : groupOf nodes k = ps) :
    emitGroup k ps = ps.map (processNodeSpec nodes) := by
  have hmem : ∀ q ∈ ps, normalize q.command = k := by
    intro q hq
    exact mem_groupOf_normalize nodes k q (hg ▸ hq)
  have hndg : (ps.map (fun q => q.index)).Nodup :=
    hg ▸ groupOf_map_index_nodup nodes hnd k
  cases ps with
  | nil => rfl
  | cons primary rest =>
    have h1 : normalize primary.command = k := hmem primary (by simp)
    rw [emitGroup]
    by_cases hr : rest = []
    · subst hr
      simp only [List.map_cons, List.map_nil, if_pos rfl]
      rw [processNodeSpec, h1, hg]
      simp
    · rw [if_neg hr]
      rw [List.map_cons]
      have hprim : processNodeSpec nodes primary =
          { primary with
              isDuplicate := some false
              duplicateCount := some (rest.length + 1)
              references := some (rest.map (fun d => d.index)) } := by
        rw [processNodeSpec, h1, hg]
        simp [hr]
      rw [hprim]
      refine congrArg _ ?_
      apply List.map_congr_left
      intro d hd
      have hd1 : normalize d.command = k := hmem d (List.mem_cons_of_mem _ hd)
      have hne : ¬d.index = primary.index := by
        rw [List.map_cons, List.nodup_cons] at hndg
        intro hh
        exact hndg.1 (hh ▸ List.mem_map_of_mem (fun q => q.index) hd)
      rw [processNodeSpec, hd1, hg]
      simp [hr, hne]

theorem flatMap_emit_eq_map (nodes : List ProcessNode)
    (m : List (String × List ProcessNode))
    (h : ∀ e ∈ m, emitGroup e.1 e.2 = e.2.map (processNodeSpec nodes)) :
    m.flatMap (fun g => emitGroup g.1 g.2) =
      (m.flatMap (fun g => g.2)).map (processNodeSpec nodes) := by
  induction m with
  | nil => rfl
  | cons g rest ih =>
    simp only [List.flatMap_cons, List.map_append]
    rw [h g (by simp), ih (fun e he => h e (List.mem_cons_of_mem _ he))]

theorem indexed_nodup (nodes : List ProcessNode) (h : IndexedByPosition nodes) :
    (nodes.map (fun q => q.index)).Nodup := by
  rw [h]
  exact List.nodup_range _

theorem indexed_pairwise_lt (nodes : List ProcessNode) (h : IndexedByPosition nodes) :
    nodes.Pairwise (fun a b => a.index < b.index) := by
  have h2 := List.pairwise_lt_range nodes.length
  rw [← h] at h2
  exact List.pairwise_map.mp h2

theorem map_index_map_spec (nodes : List ProcessNode) :
    (nodes.map (processNodeSpec nodes)).map (fun q => q.index) =
      nodes.map (fun q => q.index) := by
  rw [List.map_map]
  apply List.map_congr_left
  intro q _
  exact processNodeSpec_index nodes q

/-- Full characterization of `detectCodeDuplicates` on well-formed input:
it maps each node to its `processNodeSpec` tagging, in place. -/
theorem detectCodeDuplicates_eq_map_spec (nodes : List ProcessNode)
    (h : IndexedByPosition nodes) :
    detectCodeDuplicates nodes = nodes.map (processNodeSpec nodes) := by
  have hnd := indexed_nodup nodes h
  have hall : ∀ e ∈ buildCodeMap nodes, emitGroup e.1 e.2 = e.2.map (processNodeSpec nodes) := by
    intro e he
    exact emitGroup_eq_map_spec nodes e.1 e.2 hnd (mem_buildCodeMap_eq_groupOf nodes e he).symm
  have hperm : List.Perm (detectCodeDuplicates nodes) (nodes.map (processNodeSpec nodes)) := by
    rw [detectCodeDuplicates, flatMap_emit_eq_map nodes _ hall]
    exact (sortByIndex_perm _).trans ((values_buildCodeMap nodes).map _)
  have hnd2 : ((detectCodeDuplicates nodes).map (fun q => q.index)).Nodup := by
    have h3 := hperm.map (fun q => q.index)
    rw [map_index_map_spec] at h3
    exact h3.symm.nodup hnd
  apply List.eq_of_perm_of_sorted (r := fun a b => a.index < b.index) hperm
  · exact pairwise_lt_of_le_nodup _ (by rw [detectCodeDuplicates]; exact sortByIndex_pairwise _) hnd2
  · show (nodes.map (processNodeSpec nodes)).Pairwise (fun a b => a.index < b.index)
    rw [List.pairwise_map]
    have h3 := indexed_pairwise_lt nodes h
    refine h3.imp ?_
    intro a b hab
    rw [processNodeSpec_index, processNodeSpec_index]
    exact hab

theorem indexed_get_index (nodes : List ProcessNode) (h : IndexedByPosition nodes)
    (i : Nat) (hi : i < nodes.length) : (nodes.get ⟨i, hi⟩).index = i := by
  have h1 : (nodes.map (fun q => q.index)).get? i = (List.range nodes.length).get? i :=
    congrArg (fun l => l.get? i) h
  rw [List.get?_map, List.get?_eq_get hi] at h1
  have h2 : (List.range nodes.length).get? i = some i := by
    rw [List.get?_eq_get (by simpa using hi)]
    simp
  rw [h2] at h1
  simpa using h1

theorem detect_get_spec (nodes : List ProcessNode) (h : IndexedByPosition nodes)
    (q : ProcessNode) (hq : q ∈ nodes) :
    (detectCodeDuplicates nodes).get? q.index = some (processNodeSpec nodes q) := by
  obtain ⟨n, hn⟩ := List.mem_iff_get.mp hq
  have hidx : q.index = n.val := by
    rw [← hn]
    exact indexed_get_index nodes h n.val n.isLt
  rw [detectCodeDuplicates_eq_map_spec nodes h, List.get?_map, hidx,
    List.get?_eq_get n.isLt]
  simp only [Option.map_some']
  exact congrArg (fun r => some (processNodeSpec nodes r)) hn

theorem mem_of_mem_groupOf (nodes : List ProcessNode) (v : String) (q : ProcessNode)
    (hq : q ∈ groupOf nodes v) : q ∈ nodes :=
  List.mem_of_mem_filter hq

theorem detect_primary (nodes : List ProcessNode) (h : IndexedByPosition nodes)
    (v : String) (i1 : Nat) (rest : List Nat)
    (hocc : (groupOf nodes v).map (fun q => q.index) = i1 :: rest) (hne : rest ≠ []) :
    ∃ q, (detectCodeDuplicates nodes).get? i1 = some q ∧
      q.isDuplicate = some false ∧ q.duplicateCount = some (rest.length + 1) ∧
      q.references = some rest := by
  cases hg : groupOf nodes v with
  | nil => rw [hg] at hocc; exact absurd hocc (by simp)
  | cons q1 qrest =>
    rw [hg, List.map_cons] at hocc
    have hq1i : q1.index = i1 := (List.cons.injEq _ _ _ _ ▸ hocc).1
    have hrest : qrest.map (fun q => q.index) = rest := (List.cons.injEq _ _ _ _ ▸ hocc).2
    have hq1g : q1 ∈ groupOf nodes v := by rw [hg]; exact List.mem_cons_self _ _
    have hq1mem : q1 ∈ nodes := mem_of_mem_groupOf nodes v q1 hq1g
    have hq1n : normalize q1.command = v := mem_groupOf_normalize nodes v q1 hq1g
    have hqrest : qrest ≠ [] := by
      intro hh
      rw [hh] at hrest
      exact hne hrest.symm
    refine ⟨processNodeSpec nodes q1, ?_, ?_⟩
    · rw [← hq1i]
      exact detect_get_spec nodes h q1 hq1mem
    · rw [processNodeSpec, hq1n, hg]
      simp only [if_neg hqrest, eq_self_iff_true, if_true]
      refine ⟨by trivial, ?_, ?_⟩
      · rw [← hrest, List.length_map]
      · rw [← hrest]

theorem detect_duplicates (nodes : List ProcessNode) (h : IndexedByPosition nodes)
    (v : String) (i1 : Nat) (rest : List Nat)
    (hocc : (groupOf nodes v).map (fun q => q.index) = i1 :: rest) :
    ∀ j ∈ rest, ∃ q, (detectCodeDuplicates nodes).get? j = some q ∧
      q.isDuplicate = some true ∧ q.referenceTo = some i1 ∧
      q.command = some (refCommand i1 v) := by
  cases hg : groupOf nodes v with
  | nil => rw [hg] at hocc; exact absurd hocc (by simp)
  | cons q1 qrest =>
    rw [hg, List.map_cons] at hocc
    have hq1i : q1.index = i1 := (List.cons.injEq _ _ _ _ ▸ hocc).1
    have hrest : qrest.map (fun q => q.index) = rest := (List.cons.injEq _ _ _ _ ▸ hocc).2
    intro j hj
    rw [← hrest] at hj
    obtain ⟨d, hd, hdj⟩ := List.mem_map.mp hj
    have hqrest : qrest ≠ [] := by
      intro hh
      rw [hh] at hd
      exact absurd hd (by simp)
    have hdg : d ∈ groupOf nodes v := by rw [hg]; exact List.mem_cons_of_mem _ hd
    have hdmem : d ∈ nodes := mem_of_mem_groupOf nodes v d hdg
    have hdn : normalize d.command = v := mem_groupOf_normalize nodes v d hdg
    have hndg := groupOf_map_index_nodup nodes (indexed_nodup nodes h) v
    rw [hg, List.map_cons, List.nodup_cons] at hndg
    have hdne : ¬d.index = q1.index := by
      intro hh
      exact hndg.1 (hh ▸ List.mem_map_of_mem (fun q => q.index) hd)
    refine ⟨processNodeSpec nodes d, ?_, ?_⟩
    · rw [← hdj]
      exact detect_get_spec nodes h d hdmem
    · rw [processNodeSpec, hdn, hg]
      simp only [if_neg hqrest, if_neg hdne]
      exact ⟨by trivial, by rw [hq1i], by rw [hq1i]⟩

theorem detect_singleton (nodes : List ProcessNode) (h : IndexedByPosition nodes)
    (hraw : ∀ q ∈ nodes, q.referenceTo = none)
    (v : String) (i1 : Nat)
    (hocc : (groupOf nodes v).map (fun q => q.index) = [i1]) :
    ∃ q, (detectCodeDuplicates nodes).get? i1 = some q ∧
      q.isDuplicate = some false ∧ q.referenceTo = none := by
  cases hg : groupOf nodes v with
  | nil => rw [hg] at hocc; exact absurd hocc (by simp)
  | cons q1 qrest =>
    rw [hg, List.map_cons] at hocc
    have hq1i : q1.index = i1 := (List.cons.injEq _ _ _ _ ▸ hocc).1
    have hrest : qrest.map (fun q => q.index) = [] := (List.cons.injEq _ _ _ _ ▸ hocc).2
    have hqrest : qrest = [] := by
      cases qrest with
      | nil => rfl
      | cons a l => exact absurd hrest (by simp)
    subst hqrest
    have hq1g : q1 ∈ groupOf nodes v := by rw [hg]; exact List.mem_cons_self _ _
    have hq1mem : q1 ∈ nodes := mem_of_mem_groupOf nodes v q1 hq1g
    have hq1n : normalize q1.command = v := mem_groupOf_normalize nodes v q1 hq1g
    refine ⟨processNodeSpec nodes q1, ?_, ?_⟩
    · rw [← hq1i]
      exact detect_get_spec nodes h q1 hq1mem
    · rw [processNodeSpec, hq1n, hg]
      simp only [eq_self_iff_true, if_true]
      exact ⟨by trivial, hraw q1 hq1mem⟩

/-- C1: for a normalized command value occurring at indices `i1 :: rest`
with `rest ≠ []`, the detector tags the node at `i1` as primary
(`isDuplicate = false`, `duplicateCount = k`, `references = rest` in
original relative order) and each node at an index in `rest` as a
duplicate with `referenceTo = i1`; a node whose normalized command occurs
exactly once keeps `isDuplicate = false` and has no `referenceTo`.  Input
nodes are position-indexed and untagged, as produced by the upstream
line-to-node mapping. -/
theorem duplicateDetector_group_tagging (nodes : List ProcessNode)
    (h : IndexedByPosition nodes)
    (hraw : ∀ q ∈ nodes, q.referenceTo = none)
    (v : String) (i1 : Nat) (rest : List Nat)
    (hocc : (groupOf nodes v).map (fun q => q.index) = i1 :: rest) :
    (rest ≠ [] →
      (∃ q, (detectCodeDuplicates nodes).get? i1 = some q ∧
        q.isDuplicate = some false ∧ q.duplicateCount = some (rest.length + 1) ∧
        q.references = some rest) ∧
      (∀ j ∈ rest, ∃ q, (detectCodeDuplicates nodes).get? j = some q ∧
        q.isDuplicate = some true ∧ q.referenceTo = some i1)) ∧
    (rest = [] →
      ∃ q, (detectCodeDuplicates nodes).get? i1 = some q ∧
        q.isDuplicate = some false ∧ q.referenceTo = none) := by
  constructor
  · intro hne
    refine ⟨detect_primary nodes h v i1 rest hocc hne, ?_⟩
    intro j hj
    obtain ⟨q, hq1, hq2, hq3, _⟩ := detect_duplicates nodes h v i1 rest hocc j hj
    exact ⟨q, hq1, hq2, hq3⟩
  · intro hemp
    subst hemp
    exact detect_singleton nodes h hraw v i1 hocc

/-- C2: the detector output has the length of its input and is sorted
ascending by `index`; on position-indexed input the index sequence of the
output reproduces the input order exactly. -/
theorem duplicateDetector_length_order (nodes : List ProcessNode) :
    (detectCodeDuplicates nodes).length = nodes.length ∧
    (detectCodeDuplicates nodes).Pairwise (fun a b => a.index ≤ b.index) ∧
    (IndexedByPosition nodes →
      (detectCodeDuplicates nodes).map (fun q => q.index) = nodes.map (fun q => q.index)) := by
  refine ⟨detectCodeDuplicates_length nodes, ?_, ?_⟩
  · rw [detectCodeDuplicates]
    exact sortByIndex_pairwise _
  · intro h
    rw [detectCodeDuplicates_eq_map_spec nodes h, map_index_map_spec]

/-- Witness for C1 on the spec's scenario
`["print('a')", "print('b')", "print('a')"]`: node 0 is primary with
count 2 and references `[2]`. -/
theorem duplicateDetector_group_tagging_witness :
    ∃ q, (detectCodeDuplicates [{ index := 0, command := some "print('a')" },
      { index := 1, command := some "print('b')" },
      { index := 2, command := some "print('a')" }]).get? 0 = some q ∧
      q.isDuplicate = some false ∧ q.duplicateCount = some 2 ∧
      q.references = some [2] :=
  ((duplicateDetector_group_tagging
      [{ index := 0, command := some "print('a')" },
       { index := 1, command := some "print('b')" },
       { index := 2, command := some "print('a')" }]
      (by decide) (by decide) "print('a')" 0 [2] (by decide)).1 (by decide)).1

/-- Witness for C2 on the same three-line scenario. -/
theorem duplicateDetector_length_order_witness :
    (detectCodeDuplicates [{ index := 0, command := some "print('a')" },
      { index := 1, command := some "print('b')" },
      { index := 2, command := some "print('a')" }]).length = 3 ∧
    (detectCodeDuplicates [{ index := 0, command := some "print('a')" },
      { index := 1, command := some "print('b')" },
      { index := 2, command := some "print('a')" }]).map (fun q => q.index) = [0, 1, 2] :=
  ⟨(duplicateDetector_length_order
      [{ index := 0, command := some "print('a')" },
       { index := 1, command := some "print('b')" },
       { index := 2, command := some "print('a')" }]).1,
   (duplicateDetector_length_order
      [{ index := 0, command := some "print('a')" },
       { index := 1, command := some "print('b')" },
       { index := 2, command := some "print('a')" }]).2.2 (by decide)⟩

/-- C6 counterexample: for the input `["PRINT", "PRINT"]` the duplicate at
index 1 has its command rewritten with the normalized group key `"print"`,
not with its own original command text `"PRINT"` as the claim states. -/
theorem duplicateDetector_rewrite_counterexample :
    ((detectCodeDuplicates [{ index := 0, command := some "PRINT" },
        { index := 1, command := some "PRINT" }]).get? 1).map (fun q => q.command) =
      some (some (refCommand 0 "print")) ∧
    ((detectCodeDuplicates [{ index := 0, command := some "PRINT" },
        { index := 1, command := some "PRINT" }]).get? 1).map (fun q => q.command) ≠
      some (some (refCommand 0 "PRINT")) ∧
    ((detectCodeDuplicates [{ index := 0, command := some "PRINT" },
        { index := 1, command := some "PRINT" }]).get? 1).map (fun q => q.isDuplicate) =
      some (some true) := by
  decide

/-- C6 (amended): every non-primary node of a duplicate group has its
command rewritten to the reference string built from an arrow, the primary
occurrence's 1-based address, and the group's normalized (lowercased,
trimmed) command text — not the duplicate's own original command text. -/
theorem duplicateDetector_rewrite_amended (nodes : List ProcessNode)
    (h : IndexedByPosition nodes)
    (v : String) (i1 : Nat) (rest : List Nat)
    (hocc : (groupOf nodes v).map (fun q => q.index) = i1 :: rest) :
    ∀ j ∈ rest, ∃ q, (detectCodeDuplicates nodes).get? j = some q ∧
      q.isDuplicate = some true ∧ q.command = some (refCommand i1 v) := by
  intro j hj
  obtain ⟨q, h1, h2, _, h4⟩ := detect_duplicates nodes h v i1 rest hocc j hj
  exact ⟨q, h1, h2, h4⟩

/-- Witness for the amended C6 on the input `["PRINT", "PRINT"]`. -/
theorem duplicateDetector_rewrite_amended_witness :
    ∃ q, (detectCodeDuplicates [{ index := 0, command := some "PRINT" },
        { index := 1, command := some "PRINT" }]).get? 1 = some q ∧
      q.isDuplicate = some true ∧ q.command = some (refCommand 0 "print") :=
  duplicateDetector_rewrite_amended
    [{ index := 0, command := some "PRINT" }, { index := 1, command := some "PRINT" }]
    (by decide) "print" 0 [1] (by decide) 1 (by decide)

/-- C7: the empty normalized command is a valid group key: a command is
blank, whitespace-only or missing exactly when it normalizes to `""`, and
when two or more such nodes occur, the earliest is the primary of their
common group and every later one is tagged as a duplicate referring to
it. -/
theorem duplicateDetector_blank_group (nodes : List ProcessNode)
    (h : IndexedByPosition nodes) (i1 : Nat) (rest : List Nat)
    (hocc : (nodes.filter (fun q => normalize q.command = "")).map (fun q => q.index) =
      i1 :: rest)
    (hne : rest ≠ []) :
    (∀ q : ProcessNode, (normalize q.command = "" ↔
      (q.command = none ∨
        ∃ s, q.command = some s ∧ trimChars (s.toList.map Char.toLower) = []))) ∧
    (∃ q, (detectCodeDuplicates nodes).get? i1 = some q ∧
      q.isDuplicate = some false ∧ q.duplicateCount = some (rest.length + 1)) ∧
    (∀ j ∈ rest, ∃ q, (detectCodeDuplicates nodes).get? j = some q ∧
      q.isDuplicate = some true ∧ q.referenceTo = some i1) := by
  have hocc2 : (groupOf nodes "").map (fun q => q.index) = i1 :: rest := hocc
  refine ⟨?_, ?_, ?_⟩
  · intro q
    cases q.command with
    | none =>
      constructor
      · intro _
        exact Or.inl rfl
      · intro _
        rfl
    | some s =>
      constructor
      · intro hn
        refine Or.inr ⟨s, rfl, ?_⟩
        have h3 : (trimChars (s.toList.map Char.toLower)).asString =
            ([] : List Char).asString := hn
        exact List.asString_inj.mp h3
      · intro hv
        rcases hv with hv | ⟨s', hs', ht⟩
        · exact absurd hv (by simp)
        · have hss : s = s' := Option.some.inj hs'
          subst hss
          show (trimChars (s.toList.map Char.toLower)).asString = ""
          rw [ht]
          rfl
  · obtain ⟨q, h1, h2, h3, _⟩ := detect_primary nodes h "" i1 rest hocc2 hne
    exact ⟨q, h1, h2, h3⟩
  · intro j hj
    obtain ⟨q, h1, h2, h3, _⟩ := detect_duplicates nodes h "" i1 rest hocc2 j hj
    exact ⟨q, h1, h2, h3⟩

/-- Witness for C7: a whitespace-only line and a missing command form one
duplicate group; the node at index 1 refers back to index 0. -/
theorem duplicateDetector_blank_group_witness :
    ∃ q, (detectCodeDuplicates [{ index := 0, command := some "   " },
        ({ index := 1 } : ProcessNode)]).get? 1 = some q ∧
      q.isDuplicate = some true ∧ q.referenceTo = some 0 :=
  (duplicateDetector_blank_group
      [{ index := 0, command := some "   " }, ({ index := 1 } : ProcessNode)]
      (by decide) 0 [1] (by decide) (by decide)).2.2 1 (by decide)

/-! ### The block segmenter's close rules -/

/-- C3: one loop step of the segmenter on an open block: a function-start
node closes the open block exclusively at `index - 1` (and opens a new
block at `index`); a return/merge node closes the open block inclusively
at `index`; a node that is both performs the function-start close first
and then the return close on the freshly opened block, producing a
single-line block `[index, index]`. -/
theorem blockSegmenter_close_rules (processes : List ProcessNode)
    (lineMap : List (String × Nat)) (blocks : List FunctionBlock)
    (cb : OpenBlock) (index : Nat) (p : ProcessNode) :
    (isFunctionStart p = true → isReturnOrMerge p = false →
      stepBlock processes lineMap (blocks, some cb) (index, p) =
        (blocks ++ [closeBlock processes lineMap cb (index - 1)],
         some (openBlock p index (blocks.length + 1)))) ∧
    (isFunctionStart p = false → isReturnOrMerge p = true →
      stepBlock processes lineMap (blocks, some cb) (index, p) =
        (blocks ++ [closeBlock processes lineMap cb index], none)) ∧
    (isFunctionStart p = true → isReturnOrMerge p = true →
      stepBlock processes lineMap (blocks, some cb) (index, p) =
        (blocks ++ [closeBlock processes lineMap cb (index - 1),
          closeBlock processes lineMap (openBlock p index (blocks.length + 1)) index],
         none) ∧
      (closeBlock processes lineMap
          (openBlock p index (blocks.length + 1)) index).startAddress = index ∧
      (closeBlock processes lineMap
          (openBlock p index (blocks.length + 1)) index).endAddress = index ∧
      (closeBlock processes lineMap
          (openBlock p index (blocks.length + 1)) index).addresses = [index]) := by
  refine ⟨?_, ?_, ?_⟩
  · intro h1 h2
    simp [stepBlock, h1, h2]
  · intro h1 h2
    simp [stepBlock, h1, h2]
  · intro h1 h2
    refine ⟨by simp [stepBlock, h1, h2], rfl, rfl, ?_⟩
    show ((List.range (index - index + 1)).map (fun i => index + i)) = [index]
    rw [Nat.sub_self]
    rfl

/-- Witness for C3 at a concrete state: the node is both a function start
and contains `"return"`, so the open block closes at `index - 1` and the
new block closes immediately as the single-line block `[2, 2]`. -/
theorem blockSegmenter_close_rules_witness :
    stepBlock [] []
        ([], some { id := "func-1", name := "f", startAddress := 0,
                    category := "general", description := "d" })
        (2, { index := 2, command := some "return x", category := some "function" }) =
      ([] ++ [closeBlock [] []
                { id := "func-1", name := "f", startAddress := 0,
                  category := "general", description := "d" } 1,
              closeBlock [] []
                (openBlock { index := 2, command := some "return x",
                             category := some "function" } 2 1) 2], none) ∧
    (closeBlock [] []
        (openBlock { index := 2, command := some "return x",
                     category := some "function" } 2 1) 2).addresses = [2] :=
  ⟨((blockSegmenter_close_rules [] [] []
        { id := "func-1", name := "f", startAddress := 0,
          category := "general", description := "d" } 2
        { index := 2, command := some "return x", category := some "function" }).2.2
      (by decide) (by decide)).1,
   ((blockSegmenter_close_rules [] [] []
        { id := "func-1", name := "f", startAddress := 0,
          category := "general", description := "d" } 2
        { index := 2, command := some "return x", category := some "function" }).2.2
      (by decide) (by decide)).2.2.2⟩

/-! ### Lengths and ranges of emitted blocks -/

theorem createLineComposition_lengths (addresses : List Nat)
    (processes : List ProcessNode) (lineMap : List (String × Nat)) :
    (createLineComposition addresses processes lineMap).originalLines.length =
        addresses.length ∧
    (createLineComposition addresses processes lineMap).optimizedLines.length =
        addresses.length := by
  induction addresses with
  | nil => exact ⟨rfl, rfl⟩
  | cons a rest ih =>
    rw [createLineComposition]
    cases lookupKey lineMap (normalize (nodeAt processes a).command) with
    | none => simpa using ih
    | some f =>
      by_cases hf : f < a
      · simpa [hf] using ih
      · simpa [hf] using ih

theorem closeBlock_startAddress (processes : List ProcessNode)
    (lineMap : List (String × Nat)) (cb : OpenBlock) (e : Nat) :
    (closeBlock processes lineMap cb e).startAddress = cb.startAddress := rfl

theorem closeBlock_endAddress (processes : List ProcessNode)
    (lineMap : List (String × Nat)) (cb : OpenBlock) (e : Nat) :
    (closeBlock processes lineMap cb e).endAddress = e := rfl

theorem closeBlock_lens (processes : List ProcessNode)
    (lineMap : List (String × Nat)) (cb : OpenBlock) (e : Nat) :
    (closeBlock processes lineMap cb e).originalLines.length =
        (closeBlock processes lineMap cb e).addresses.length ∧
    (closeBlock processes lineMap cb e).optimizedLines.length =
        (closeBlock processes lineMap cb e).addresses.length ∧
    (closeBlock processes lineMap cb e).addresses.length = e - cb.startAddress + 1 := by
  have h := createLineComposition_lengths
    ((List.range (e - cb.startAddress + 1)).map (fun i => cb.startAddress + i))
    processes lineMap
  refine ⟨?_, ?_, ?_⟩
  · show (createLineComposition _ processes lineMap).originalLines.length = _
    rw [h.1]
    rfl
  · show (createLineComposition _ processes lineMap).optimizedLines.length = _
    rw [h.2]
    rfl
  · show ((List.range (e - cb.startAddress + 1)).map (fun i => cb.startAddress + i)).length = _
    rw [List.length_map, List.length_range]

theorem goodBlocks_mono (k k' : Nat) (blocks : List FunctionBlock)
    (hk : k ≤ k') (h : GoodBlocks k blocks) : GoodBlocks k' blocks := by
  refine ⟨h.1, ?_⟩
  intro b hb
  obtain ⟨h1, h2, h3⟩ := h.2 b hb
  exact ⟨h1, lt_of_lt_of_le h2 hk, h3⟩

theorem goodBlocks_append (k k' : Nat) (blocks : List FunctionBlock)
    (processes : List ProcessNode) (lineMap : List (String × Nat))
    (cb : OpenBlock) (e : Nat)
    (hg : GoodBlocks k blocks) (hkk : k ≤ k')
    (hend : ∀ b ∈ blocks, b.endAddress < cb.startAddress)
    (hse : cb.startAddress ≤ e) (hek : e < k') :
    GoodBlocks k' (blocks ++ [closeBlock processes lineMap cb e]) := by
  constructor
  · rw [List.pairwise_append]
    refine ⟨hg.1, List.pairwise_singleton _ _, ?_⟩
    intro a ha b hb
    rw [List.mem_singleton] at hb
    subst hb
    rw [closeBlock_startAddress]
    exact hend a ha
  · intro b hb
    rcases List.mem_append.mp hb with hb | hb
    · obtain ⟨h1, h2, h3⟩ := hg.2 b hb
      exact ⟨h1, lt_of_lt_of_le h2 hkk, h3⟩
    · rw [List.mem_singleton] at hb
      subst hb
      obtain ⟨hl1, hl2, hl3⟩ := closeBlock_lens processes lineMap cb e
      rw [closeBlock_startAddress, closeBlock_endAddress]
      exact ⟨hse, hek, hl1, hl2, by rw [hl3]⟩

theorem stepBlock_fsT_rmF_some (processes : List ProcessNode)
    (lineMap : List (String × Nat)) (blocks : List FunctionBlock) (cb : OpenBlock)
    (k : Nat) (p : ProcessNode) (h1 : isFunctionStart p = true)
    (h2 : isReturnOrMerge p = false) :
    stepBlock processes lineMap (blocks, some cb) (k, p) =
      (blocks ++ [closeBlock processes lineMap cb (k - 1)],
       some (openBlock p k (blocks.length + 1))) := by
  simp [stepBlock, h1, h2]

theorem stepBlock_fsT_rmT_some (processes : List ProcessNode)
    (lineMap : List (String × Nat)) (blocks : List FunctionBlock) (cb : OpenBlock)
    (k : Nat) (p : ProcessNode) (h1 : isFunctionStart p = true)
    (h2 : isReturnOrMerge p = true) :
    stepBlock processes lineMap (blocks, some cb) (k, p) =
      (blocks ++ [closeBlock processes lineMap cb (k - 1),
        closeBlock processes lineMap (openBlock p k (blocks.length + 1)) k], none) := by
  simp [stepBlock, h1, h2]

theorem stepBlock_fsT_rmF_none (processes : List ProcessNode)
    (lineMap : List (String × Nat)) (blocks : List FunctionBlock)
    (k : Nat) (p : ProcessNode) (h1 : isFunctionStart p = true)
    (h2 : isReturnOrMerge p = false) :
    stepBlock processes lineMap (blocks, none) (k, p) =
      (blocks, some (openBlock p k blocks.length)) := by
  simp [stepBlock, h1, h2]

theorem stepBlock_fsT_rmT_none (processes : List ProcessNode)
    (lineMap : List (String × Nat)) (blocks : List FunctionBlock)
    (k : Nat) (p : ProcessNode) (h1 : isFunctionStart p = true)
    (h2 : isReturnOrMerge p = true) :
    stepBlock processes lineMap (blocks, none) (k, p) =
      (blocks ++ [closeBlock processes lineMap (openBlock p k blocks.length) k], none) := by
  simp [stepBlock, h1, h2]

theorem stepBlock_fsF_rmT_some (processes : List ProcessNode)
    (lineMap : List (String × Nat)) (blocks : List FunctionBlock) (cb : OpenBlock)
    (k : Nat) (p : ProcessNode) (h1 : isFunctionStart p = false)
    (h2 : isReturnOrMerge p = true) :
    stepBlock processes lineMap (blocks, some cb) (k, p) =
      (blocks ++ [closeBlock processes lineMap cb k], none) := by
  simp [stepBlock, h1, h2]

theorem stepBlock_fsF_rmT_none (processes : List ProcessNode)
    (lineMap : List (String × Nat)) (blocks : List FunctionBlock)
    (k : Nat) (p : ProcessNode) (h1 : isFunctionStart p = false)
    (h2 : isReturnOrMerge p = true) :
    stepBlock processes lineMap (blocks, none) (k, p) = (blocks, none) := by
  simp [stepBlock, h1, h2]

theorem stepBlock_fsF_rmF (processes : List ProcessNode)
    (lineMap : List (String × Nat)) (st : List FunctionBlock × Option OpenBlock)
    (k : Nat) (p : ProcessNode) (h1 : isFunctionStart p = false)
    (h2 : isReturnOrMerge p = false) :
    stepBlock processes lineMap st (k, p) = st := by
  simp [stepBlock, h1, h2]

theorem stepBlock_good (processes : List ProcessNode) (lineMap : List (String × Nat))
    (k : Nat) (st : List FunctionBlock × Option OpenBlock) (p : ProcessNode)
    (h : GoodState k st) : GoodState (k + 1) (stepBlock processes lineMap st (k, p)) := by
  rcases st with ⟨blocks, cur⟩
  obtain ⟨hgb, hopen⟩ := h
  have hends : ∀ b ∈ blocks, b.endAddress < k := fun b hb => (hgb.2 b hb).2.1
  by_cases hf : isFunctionStart p
  · cases cur with
    | none =>
      by_cases hr : isReturnOrMerge p
      · rw [stepBlock_fsT_rmT_none processes lineMap blocks k p hf hr]
        refine ⟨?_, ?_⟩
        · exact goodBlocks_append k (k + 1) blocks processes lineMap _ k hgb
            (Nat.le_succ k) hends le_rfl (Nat.lt_succ_self k)
        · intro cb hcb
          exact absurd hcb (by simp)
      · rw [stepBlock_fsT_rmF_none processes lineMap blocks k p hf
          (Bool.eq_false_iff.mpr hr)]
        refine ⟨goodBlocks_mono k (k + 1) blocks (Nat.le_succ k) hgb, ?_⟩
        intro cb hcb
        simp only [Option.some.injEq] at hcb
        subst hcb
        exact ⟨hends, Nat.lt_succ_self k⟩
    | some cb0 =>
      obtain ⟨hend0, hlt0⟩ := hopen cb0 rfl
      have hg1 : GoodBlocks k (blocks ++ [closeBlock processes lineMap cb0 (k - 1)]) :=
        goodBlocks_append k k blocks processes lineMap cb0 (k - 1) hgb le_rfl
          hend0 (by omega) (by omega)
      have hends1 : ∀ b ∈ blocks ++ [closeBlock processes lineMap cb0 (k - 1)],
          b.endAddress < k := fun b hb => (hg1.2 b hb).2.1
      by_cases hr : isReturnOrMerge p
      · rw [stepBlock_fsT_rmT_some processes lineMap blocks cb0 k p hf hr]
        refine ⟨?_, ?_⟩
        · have h2 := goodBlocks_append k (k + 1)
            (blocks ++ [closeBlock processes lineMap cb0 (k - 1)]) processes lineMap
            (openBlock p k (blocks.length + 1)) k hg1 (Nat.le_succ k)
            (by
              intro b hb
              exact hends1 b hb)
            le_rfl (Nat.lt_succ_self k)
          simpa [List.append_assoc] using h2
        · intro cb hcb
          exact absurd hcb (by simp)
      · rw [stepBlock_fsT_rmF_some processes lineMap blocks cb0 k p hf
          (Bool.eq_false_iff.mpr hr)]
        refine ⟨goodBlocks_mono k (k + 1) _ (Nat.le_succ k) hg1, ?_⟩
        intro cb hcb
        simp only [Option.some.injEq] at hcb
        subst hcb
        exact ⟨hends1, Nat.lt_succ_self k⟩
  · have hf' : isFunctionStart p = false := Bool.eq_false_iff.mpr hf
    by_cases hr : isReturnOrMerge p
    · cases cur with
      | none =>
        rw [stepBlock_fsF_rmT_none processes lineMap blocks k p hf' hr]
        refine ⟨goodBlocks_mono k (k + 1) blocks (Nat.le_succ k) hgb, ?_⟩
        intro cb hcb
        exact absurd hcb (by simp)
      | some cb0 =>
        obtain ⟨hend0, hlt0⟩ := hopen cb0 rfl
        rw [stepBlock_fsF_rmT_some processes lineMap blocks cb0 k p hf' hr]
        refine ⟨?_, ?_⟩
        · exact goodBlocks_append k (k + 1) blocks processes lineMap cb0 k hgb
            (Nat.le_succ k) hend0 (by omega) (Nat.lt_succ_self k)
        · intro cb hcb
          exact absurd hcb (by simp)
    · rw [stepBlock_fsF_rmF processes lineMap (blocks, cur) k p hf'
        (Bool.eq_false_iff.mpr hr)]
      refine ⟨goodBlocks_mono k (k + 1) blocks (Nat.le_succ k) hgb, ?_⟩
      intro cb hcb
      obtain ⟨hend0, hlt0⟩ := hopen cb hcb
      exact ⟨hend0, by omega⟩

theorem foldl_stepBlock_good (processes : List ProcessNode)
    (lineMap : List (String × Nat)) (xs : List ProcessNode) :
    ∀ (k : Nat) (st : List FunctionBlock × Option OpenBlock), GoodState k st →
      GoodState (k + xs.length)
        (List.foldl (stepBlock processes lineMap) st (List.enumFrom k xs)) := by
  induction xs with
  | nil => intro k st h; simpa using h
  | cons x rest ih =>
    intro k st h
    have hred : List.enumFrom k (x :: rest) = (k, x) :: List.enumFrom (k + 1) rest := rfl
    rw [hred, List.foldl_cons]
    have h2 := stepBlock_good processes lineMap k st x h
    have h3 := ih (k + 1) _ h2
    have harith : k + (x :: rest).length = k + 1 + rest.length := by
      rw [List.length_cons]
      omega
    rw [harith]
    exact h3

theorem detectFunctionBlocks_good (processes : List ProcessNode) :
    GoodBlocks processes.length (detectFunctionBlocks processes) := by
  have hres : GoodState processes.length
      (processes.enum.foldl (stepBlock processes (buildLineMap processes)) ([], none)) := by
    have h0 : GoodState 0 (([], none) : List FunctionBlock × Option OpenBlock) := by
      refine ⟨⟨List.Pairwise.nil, by simp⟩, ?_⟩
      intro cb hcb
      exact absurd hcb (by simp)
    have h1 := foldl_stepBlock_good processes (buildLineMap processes) processes 0 ([], none) h0
    simpa [List.enum] using h1
  rw [detectFunctionBlocks]
  cases hcur : (processes.enum.foldl (stepBlock processes (buildLineMap processes))
      ([], none)).2 with
  | none =>
    simp only [hcur]
    exact hres.1
  | some cb =>
    simp only [hcur]
    obtain ⟨hend, hlt⟩ := hres.2 cb hcur
    exact goodBlocks_append processes.length processes.length _ processes
      (buildLineMap processes) cb (processes.length - 1) hres.1 le_rfl hend
      (by omega) (by omega)

/-- C4: the emitted blocks have pairwise non-overlapping, strictly
increasing address ranges (each block starts strictly after the previous
block's end), every range lies inside the input; and a block still open
after the loop is closed at the last index of the sequence. -/
theorem blockSegmenter_ranges (processes : List ProcessNode) :
    (detectFunctionBlocks processes).Pairwise
      (fun b₁ b₂ => b₁.endAddress < b₂.startAddress) ∧
    (∀ b ∈ detectFunctionBlocks processes,
      b.startAddress ≤ b.endAddress ∧ b.endAddress < processes.length) ∧
    (∀ cb, (processes.enum.foldl (stepBlock processes (buildLineMap processes))
        ([], none)).2 = some cb →
      detectFunctionBlocks processes =
        (processes.enum.foldl (stepBlock processes (buildLineMap processes))
          ([], none)).1 ++
          [closeBlock processes (buildLineMap processes) cb (processes.length - 1)]) := by
  have hg := detectFunctionBlocks_good processes
  refine ⟨hg.1, ?_, ?_⟩
  · intro b hb
    obtain ⟨h1, h2, _⟩ := hg.2 b hb
    exact ⟨h1, h2⟩
  · intro cb hcb
    rw [detectFunctionBlocks]
    simp only [hcb]

/-- Witness for C4: a two-line input whose block is still open at end of
input; it is closed at the last index, and the listed properties hold. -/
theorem blockSegmenter_ranges_witness :
    (detectFunctionBlocks funcLinesOpen).Pairwise
      (fun b₁ b₂ => b₁.endAddress < b₂.startAddress) ∧
    detectFunctionBlocks funcLinesOpen =
      (funcLinesOpen.enum.foldl (stepBlock funcLinesOpen (buildLineMap funcLinesOpen))
          ([], none)).1 ++
        [closeBlock funcLinesOpen (buildLineMap funcLinesOpen)
          { id := "func-1", name := "f():", startAddress := 0, category := "function",
            description := "Function block starting at A1" } 1] :=
  ⟨(blockSegmenter_ranges funcLinesOpen).1,
   (blockSegmenter_ranges funcLinesOpen).2.2
     { id := "func-1", name := "f():", startAddress := 0, category := "function",
       description := "Function block starting at A1" } (by decide)⟩

/-- C5: for every emitted block, `optimizedLines` and `originalLines` have
the same (positive) length, so the derived efficiency-reduction metric
`1 - optimizedLines.length / originalLines.length` is exactly `0`. -/
theorem blockSegmenter_efficiency_zero (processes : List ProcessNode) :
    ∀ b ∈ detectFunctionBlocks processes,
      b.optimizedLines.length = b.originalLines.length ∧
      0 < b.originalLines.length ∧
      efficiencyReduction b = 0 := by
  intro b hb
  obtain ⟨_, _, h3, h4, h5⟩ := (detectFunctionBlocks_good processes).2 b hb
  have hpos : 0 < b.originalLines.length := by
    rw [h3, h5]
    omega
  refine ⟨by rw [h3, h4], hpos, ?_⟩
  rw [efficiencyReduction, h3, h4]
  have hne : ((b.addresses.length : ℚ)) ≠ 0 := by
    have : 0 < b.addresses.length := by rw [h5]; omega
    exact_mod_cast Nat.pos_iff_ne_zero.mp this
  rw [div_self hne]
  ring

/-- Witness for C5 on the spec's scenario `["def f():", "x = 1",
"return x"]`, which produces one block spanning `[0, 2]`. -/
theorem blockSegmenter_efficiency_zero_witness :
    0 < (detectFunctionBlocks funcLines).length ∧
    efficiencyReduction ((detectFunctionBlocks funcLines).getD 0 default) = 0 :=
  ⟨by decide,
   (blockSegmenter_efficiency_zero funcLines _ (by decide)).2.2⟩

/-! ### Blank commands are never replaced in a line composition -/

theorem lookupKey_eq_none_of_keys {β : Type} (m : List (String × β)) (k : String)
    (h : ∀ e ∈ m, e.1 ≠ k) : lookupKey m k = none := by
  induction m with
  | nil => rfl
  | cons g rest ih =>
    rw [lookupKey, if_neg (h g (by simp))]
    exact ih (fun e he => h e (List.mem_cons_of_mem _ he))

theorem buildLineMap_keys_ne_empty (processes : List ProcessNode) :
    ∀ e ∈ buildLineMap processes, e.1 ≠ "" := by
  suffices hgen : ∀ (l : List (Nat × ProcessNode)) (m : List (String × Nat)),
      (∀ e ∈ m, e.1 ≠ "") →
      ∀ e ∈ l.foldl
        (fun lineMap pi =>
          if normalize pi.2.command ≠ "" ∧ lookupKey lineMap (normalize pi.2.command) = none
          then lineMap ++ [(normalize pi.2.command, pi.1)]
          else lineMap) m, e.1 ≠ "" by
    exact hgen processes.enum [] (by simp)
  intro l
  induction l with
  | nil => intro m hm; simpa using hm
  | cons x rest ih =>
    intro m hm
    rw [List.foldl_cons]
    apply ih
    by_cases hc : normalize x.2.command ≠ "" ∧ lookupKey m (normalize x.2.command) = none
    · rw [if_pos hc]
      intro e he
      rcases List.mem_append.mp he with he | he
      · exact hm e he
      · rw [List.mem_singleton] at he
        subst he
        exact hc.1
    · rw [if_neg hc]
      exact hm

theorem buildLineMap_empty_lookup (processes : List ProcessNode) :
    lookupKey (buildLineMap processes) "" = none :=
  lookupKey_eq_none_of_keys _ "" (buildLineMap_keys_ne_empty processes)

theorem createLineComposition_blank_own_ref (processes : List ProcessNode)
    (addresses : List Nat) (j p : Nat)
    (haddr : addresses.get? j = some p)
    (hblank : normalize (nodeAt processes p).command = "") :
    (createLineComposition addresses processes
        (buildLineMap processes)).optimizedLines.get? j = some (lineRefStr p) := by
  induction addresses generalizing j with
  | nil => exact absurd haddr (by simp)
  | cons a rest ih =>
    cases j with
    | zero =>
      have hap : a = p := by simpa using haddr
      subst hap
      rw [createLineComposition, hblank, buildLineMap_empty_lookup]
      rfl
    | succ j' =>
      have haddr' : rest.get? j' = some p := by simpa using haddr
      rw [createLineComposition]
      cases lookupKey (buildLineMap processes) (normalize (nodeAt processes a).command) with
      | none => simpa using ih j' haddr'
      | some f =>
        by_cases hf : f < a
        · simpa [hf] using ih j' haddr'
        · simpa [hf] using ih j' haddr'

theorem createLineComposition_replacement_keys (processes : List ProcessNode)
    (lineMap : List (String × Nat)) (addresses : List Nat) :
    ∀ e ∈ (createLineComposition addresses processes lineMap).duplicateReplacements,
      ∃ q f, e = (lineRefStr q, lineRefStr f) ∧
        lookupKey lineMap (normalize (nodeAt processes q).command) = some f ∧ f < q := by
  induction addresses with
  | nil => intro e he; exact absurd he (by simp [createLineComposition])
  | cons a rest ih =>
    intro e he
    rw [createLineComposition] at he
    cases hl : lookupKey lineMap (normalize (nodeAt processes a).command) with
    | none =>
      rw [hl] at he
      exact ih e he
    | some f =>
      rw [hl] at he
      by_cases hf : f < a
      · simp only [if_pos hf] at he
        rcases List.mem_cons.mp he with he | he
        · exact ⟨a, f, he, hl, hf⟩
        · exact ih e he
      · simp only [if_neg hf] at he
        exact ih e he

/-- C10: the segmenter's `lineMap` holds no entry for the empty normalized
command, so a blank, whitespace-only or missing line is never replaced in
a block's line composition: the optimized line at its position is its own
reference, that reference is present in `optimizedLines`, and it never
occurs as a key of `duplicateReplacements` — even though the duplicate
detector does group blank lines as duplicates of each other. -/
theorem lineComposition_blank_never_replaced (processes : List ProcessNode) :
    lookupKey (buildLineMap processes) "" = none ∧
    ∀ (addresses : List Nat) (j p : Nat),
      addresses.get? j = some p →
      normalize (nodeAt processes p).command = "" →
      ((createLineComposition addresses processes
          (buildLineMap processes)).optimizedLines.get? j = some (lineRefStr p) ∧
       lineRefStr p ∈ (createLineComposition addresses processes
          (buildLineMap processes)).optimizedLines ∧
       ∀ r, (lineRefStr p, r) ∉ (createLineComposition addresses processes
          (buildLineMap processes)).duplicateReplacements) := by
  refine ⟨buildLineMap_empty_lookup processes, ?_⟩
  intro addresses j p haddr hblank
  have hown := createLineComposition_blank_own_ref processes addresses j p haddr hblank
  refine ⟨hown, List.get?_mem hown, ?_⟩
  intro r hr
  obtain ⟨q, f, he, hl, _⟩ :=
    createLineComposition_replacement_keys processes (buildLineMap processes) addresses
      (lineRefStr p, r) hr
  have hq : lineRefStr p = lineRefStr q := congrArg Prod.fst he
  have hpq : p = q := lineRefStr_injective hq
  rw [← hpq, hblank, buildLineMap_empty_lookup] at hl
  exact absurd hl (by simp)

/-- Witness for C10: a single whitespace-only line keeps its own reference
`a1` and produces no replacement entry. -/
theorem lineComposition_blank_never_replaced_witness :
    (createLineComposition [0] [mkNode 0 (some "   ")]
        (buildLineMap [mkNode 0 (some "   ")])).optimizedLines.get? 0 =
      some (lineRefStr 0) ∧
    ∀ r, (lineRefStr 0, r) ∉ (createLineComposition [0] [mkNode 0 (some "   ")]
        (buildLineMap [mkNode 0 (some "   ")])).duplicateReplacements :=
  ⟨((lineComposition_blank_never_replaced [mkNode 0 (some "   ")]).2 [0] 0 0
      (by decide) (by decide)).1,
   ((lineComposition_blank_never_replaced [mkNode 0 (some "   ")]).2 [0] 0 0
      (by decide) (by decide)).2.2⟩

/-! ### The address registry -/

theorem addrMatchesAux_sound (n : Nat) :
    ∀ l : List Char, l.length ≤ n →
      ∀ s ∈ addrMatchesAux n l, isAddrToken s = true ∧ List.IsInfix s.toList l := by
  induction n with
  | zero =>
    intro l hl s hs
    rw [addrMatchesAux] at hs
    exact absurd hs (by simp)
  | succ n ih =>
    intro l hl s hs
    cases l with
    | nil =>
      rw [addrMatchesAux] at hs
      exact absurd hs (by simp)
    | cons c cs =>
      rw [addrMatchesAux] at hs
      have hcs : cs.length ≤ n := by
        rw [List.length_cons] at hl
        omega
      by_cases hc : c = 'a' ∧ cs.takeWhile Char.isDigit ≠ []
      · rw [if_pos hc] at hs
        rcases List.mem_cons.mp hs with hs | hs
        · subst hs
          constructor
          · rw [isAddrToken, List.toList_asString]
            simp only [Bool.and_eq_true, decide_eq_true_iff]
            refine ⟨⟨by trivial, hc.2⟩, ?_⟩
            rw [List.all_eq_true]
            intro x hx
            exact List.mem_takeWhile_imp hx
          · rw [List.toList_asString]
            apply List.IsPrefix.isInfix
            rw [← hc.1]
            exact List.cons_prefix_cons.mpr ⟨rfl, List.takeWhile_prefix Char.isDigit⟩
        · obtain ⟨ht, hinf⟩ := ih (cs.dropWhile Char.isDigit)
            (le_trans (List.dropWhile_suffix Char.isDigit).length_le hcs) s hs
          refine ⟨ht, hinf.trans ?_⟩
          exact ((List.dropWhile_suffix Char.isDigit).isInfix).trans
            (List.suffix_cons c cs).isInfix
      · rw [if_neg hc] at hs
        obtain ⟨ht, hinf⟩ := ih cs hcs s hs
        exact ⟨ht, hinf.trans (List.suffix_cons c cs).isInfix⟩

theorem addrMatches_sound (l : List Char) (s : String) (hs : s ∈ addrMatches l) :
    isAddrToken s = true ∧ List.IsInfix s.toList l :=
  addrMatchesAux_sound l.length l le_rfl s hs

theorem lookup_registry_enumFrom (ps : List ProcessNode) :
    ∀ (k i : Nat) (hi : i < ps.length),
      lookupKey ((List.enumFrom k ps).map
          (fun pi => (addressIdOf pi.1,
            ({ node := pi.2, index := pi.1,
               dependencies := dependenciesOf (addressIdOf pi.1) pi.2 } : RegistryEntry))))
        (addressIdOf (k + i)) =
        some { node := ps.get ⟨i, hi⟩, index := k + i,
               dependencies := dependenciesOf (addressIdOf (k + i)) (ps.get ⟨i, hi⟩) } := by
  induction ps with
  | nil =>
    intro k i hi
    exact absurd hi (by simp)
  | cons p rest ih =>
    intro k i hi
    cases i with
    | zero =>
      show lookupKey ((addressIdOf k, _) :: _) (addressIdOf (k + 0)) = _
      rw [lookupKey, if_pos (by rw [Nat.add_zero])]
      rw [Nat.add_zero]
      rfl
    | succ i' =>
      have hne : addressIdOf k ≠ addressIdOf (k + (i' + 1)) := by
        intro hh
        have := addressIdOf_injective hh
        omega
      show lookupKey ((addressIdOf k, _) :: _) (addressIdOf (k + (i' + 1))) = _
      rw [lookupKey, if_neg hne]
      have hi' : i' < rest.length := by
        rw [List.length_cons] at hi
        omega
      have harith : k + 1 + i' = k + (i' + 1) := by omega
      have h2 := ih (k + 1) i' hi'
      rw [harith] at h2
      rw [h2]
      rfl

/-- C8: for every position `i` of the input, the registry maps the address
`` `a${i + 1}` `` to the node at `i` with its index, and the recorded
dependencies are the `/a\d+/g` matches of the node's command in match
order, with repeats kept and exact self-references removed; every recorded
dependency has the `a<digits>` shape, differs from the own address, and
occurs inside the command text. -/
theorem addressRegistry_entries (processes : List ProcessNode) (i : Nat)
    (hi : i < processes.length) :
    lookupKey (buildAddressRegistry processes) (addressIdOf i) =
      some { node := processes.get ⟨i, hi⟩, index := i,
             dependencies := dependenciesOf (addressIdOf i) (processes.get ⟨i, hi⟩) } ∧
    ∀ d ∈ dependenciesOf (addressIdOf i) (processes.get ⟨i, hi⟩),
      d ≠ addressIdOf i ∧ isAddrToken d = true ∧
      ∃ cmd, (processes.get ⟨i, hi⟩).command = some cmd ∧
        List.IsInfix d.toList cmd.toList := by
  constructor
  · have h2 := lookup_registry_enumFrom processes 0 i hi
    rw [Nat.zero_add] at h2
    exact h2
  · intro d hd
    rw [dependenciesOf] at hd
    cases hcmd : (processes.get ⟨i, hi⟩).command with
    | none =>
      rw [hcmd] at hd
      exact absurd hd (by simp)
    | some cmd =>
      rw [hcmd] at hd
      obtain ⟨hmem, hne⟩ := List.mem_filter.mp hd
      obtain ⟨ht, hinf⟩ := addrMatches_sound cmd.toList d hmem
      exact ⟨of_decide_eq_true hne, ht, cmd, rfl, hinf⟩

/-- Witness for C8: a three-node input; the entry `a2` holds the node at
position 1 and its dependencies keep the repeated `a1` and drop the
self-reference `a2`. -/
theorem addressRegistry_entries_witness :
    lookupKey (buildAddressRegistry regLines) (addressIdOf 1) =
      some { node := regLines.get ⟨1, by decide⟩, index := 1,
             dependencies := dependenciesOf (addressIdOf 1) (regLines.get ⟨1, by decide⟩) } ∧
    dependenciesOf (addressIdOf 1) (regLines.get ⟨1, by decide⟩) = ["a1", "a1"] :=
  ⟨(addressRegistry_entries regLines 1 (by decide)).1, by decide⟩

/-- C9: summoning an address that is not a key of the registry returns the
explicit not-found outcome (the error is reported and `null` returned) and
does not throw; no registry state is touched, since the lookup is a pure
function of the registry. -/
theorem summonAddress_notFound (processes : List ProcessNode) (addressId : String)
    (h : ∀ e ∈ buildAddressRegistry processes, e.1 ≠ addressId) :
    summonAddress (buildAddressRegistry processes) addressId =
      SummonResult.notFound ("Address " ++ addressId ++ " not found in registry") := by
  rw [summonAddress, lookupKey_eq_none_of_keys _ _ h]

/-- Witness for C9: looking up `"a99"` in a registry built from 3 nodes
reports not-found instead of throwing. -/
theorem summonAddress_notFound_witness :
    summonAddress (buildAddressRegistry [mkNode 0 (some "x"), mkNode 1 (some "y"),
        mkNode 2 (some "z")]) "a99" =
      SummonResult.notFound "Address a99 not found in registry" :=
  summonAddress_notFound [mkNode 0 (some "x"), mkNode 1 (some "y"), mkNode 2 (some "z")]
    "a99" (by decide)

end Codemap
